import Mathlib

/-!
Formal model of the esssans SANS data-reduction workflow.

The repository's documentation (notebooks, API reference) describes a
small-angle neutron-scattering reduction pipeline built from provider
functions.  The package implementation itself is not part of the source
tree here (only the documentation that calls it is), so the definitions
below are modelled from the specification, using exact rational arithmetic
in place of floating-point arrays.  Each definition's doc comment records
what it models.
-/

namespace EssSans

/-! ## Quadrant-symmetry cost function (beam-center finder, method 2) -/

/-- A `Quad` holds the values of the four per-quadrant I(Q) curves at one
Q bin: (north-east, north-west, south-west, south-east). -/
abbrev Quad : Type := ℚ × ℚ × ℚ × ℚ

/-- Access the i-th quadrant intensity of a `Quad`. -/
def quadGet (q : Quad) : Fin 4 → ℚ
  | 0 => q.1
  | 1 => q.2.1
  | 2 => q.2.2.1
  | 3 => q.2.2.2

/-- Mean of the four quadrant intensities at one Q bin. -/
def quadMean (q : Quad) : ℚ :=
  (q.1 + q.2.1 + q.2.2.1 + q.2.2.2) / 4

/-- Counts-weighted squared deviation of the four quadrant intensities from
their mean, at one Q bin. -/
def quadDev (q : Quad) : ℚ :=
  quadMean q *
    ((q.1 - quadMean q) ^ 2 + (q.2.1 - quadMean q) ^ 2 +
      (q.2.2.1 - quadMean q) ^ 2 + (q.2.2.2 - quadMean q) ^ 2)

/-- Modelled from the spec: the cost minimized by `beam_center_from_iofq`
(`ess.sans.beam_center_finder._cost`, not present in the source tree).
Given the four per-quadrant I(Q) curves (one `Quad` per Q bin), it
accumulates the weighted squared deviations and the mean intensities over
the Q bins and divides the two totals. -/
def _cost (quads : List Quad) : ℚ :=
  (quads.map quadDev).sum / (quads.map quadMean).sum

/-- The spec's closed-form cost formula:
cost = [Σ_Q Σ_{i=1..4} Ibar(Q)·(I_i(Q) − Ibar(Q))²] / [Σ_Q Ibar(Q)]. -/
def costFormula (quads : List Quad) : ℚ :=
  (quads.map fun q => ∑ i : Fin 4, quadMean q * (quadGet q i - quadMean q) ^ 2).sum /
    (quads.map quadMean).sum

/-! ## Center-of-mass beam-center finder (method 1) -/

/-- A detector pixel: position components, neutron counts per
time-of-flight (wavelength) bin, and a mask flag. -/
structure Pixel where
  x : ℚ
  y : ℚ
  z : ℚ
  counts : List ℚ
  masked : Bool
deriving DecidableEq

/-- Counts of a pixel integrated along the time-of-flight dimension. -/
def integratedCounts (p : Pixel) : ℚ := p.counts.sum

/-- The pixels that are not masked. -/
def unmaskedPixels (ps : List Pixel) : List Pixel :=
  ps.filter fun p => !p.masked

/-- Total integrated counts of the unmasked pixels. -/
def totalWeight (ps : List Pixel) : ℚ :=
  ((unmaskedPixels ps).map integratedCounts).sum

/-- One left-to-right pass over the pixel list accumulating
(Σ w·x, Σ w·y, Σ w·z, Σ w), skipping masked pixels. -/
def comFold (ps : List Pixel) : ℚ × ℚ × ℚ × ℚ :=
  ps.foldl
    (fun acc p =>
      if p.masked then acc
      else
        (acc.1 + integratedCounts p * p.x, acc.2.1 + integratedCounts p * p.y,
          acc.2.2.1 + integratedCounts p * p.z, acc.2.2.2 + integratedCounts p))
    (0, 0, 0, 0)

/-- Modelled from the spec: `ess.sans.beam_center_finder.beam_center_from_center_of_mass`
(not present in the source tree).  It weights the pixel positions by the
counts integrated along the time-of-flight dimension, with masked pixels
excluded, and returns the weighted centroid directly (a single pass and a
division; no iteration). -/
def beam_center_from_center_of_mass (ps : List Pixel) : ℚ × ℚ × ℚ :=
  let s := comFold ps
  (s.1 / s.2.2.2, s.2.1 / s.2.2.2, s.2.2.1 / s.2.2.2)

/-- The intensity-weighted centroid of the unmasked pixel positions,
written as the spec states it: component-wise Σ w·pos / Σ w. -/
def centroidSpec (ps : List Pixel) : ℚ × ℚ × ℚ :=
  (((unmaskedPixels ps).map fun p => integratedCounts p * p.x).sum / totalWeight ps,
    ((unmaskedPixels ps).map fun p => integratedCounts p * p.y).sum / totalWeight ps,
    ((unmaskedPixels ps).map fun p => integratedCounts p * p.z).sum / totalWeight ps)

/-! ## Background subtraction -/

/-- A binned I(Q) curve: Q bin edges and one intensity value per bin. -/
structure IofQ where
  edges : List ℚ
  values : List ℚ
deriving DecidableEq

/-- Modelled from the spec: the `BackgroundSubtractedIofQ` provider
(`ess.sans.i_of_q`, not present in the source tree), which subtracts the
background run's I(Q) from the sample run's I(Q).  The array library's
subtraction is pointwise and requires identical coordinates (Q binning);
on mismatched binning it raises, modelled as `none`. -/
def background_subtracted_iofq (s b : IofQ) : Option IofQ :=
  if s.edges = b.edges ∧ s.values.length = b.values.length then
    some ⟨s.edges, List.zipWith (fun u v => u - v) s.values b.values⟩
  else none

/-! ## Uncertainty broadcast modes -/

/-- Modelled from the spec: the uncertainty mode enum with values
upper_bound and drop. -/
inductive UncertaintyBroadcastMode where
  | upper_bound
  | drop
deriving DecidableEq

/-- A value with an optional statistical variance. -/
structure Measured where
  value : ℚ
  variance : Option ℚ
deriving DecidableEq

/-- Modelled from the spec: broadcasting a normalization factor with
uncertainties over a dimension of size n.  `drop` discards the variances;
`upper_bound` keeps the central value and scales the variance by the
broadcast size, an upper bound for the correlated-error contribution.
The central value is untouched in both modes. -/
def broadcast_uncertainties (mode : UncertaintyBroadcastMode) (n : ℕ)
    (m : Measured) : Measured :=
  match mode with
  | .drop => ⟨m.value, none⟩
  | .upper_bound => ⟨m.value, m.variance.map fun v => (n : ℚ) * v⟩

/-- Division with first-order propagation of variances. -/
def divMeasured (a b : Measured) : Measured :=
  ⟨a.value / b.value,
    match a.variance, b.variance with
    | some va, some vb => some (va / b.value ^ 2 + a.value ^ 2 * vb / b.value ^ 4)
    | some va, none => some (va / b.value ^ 2)
    | none, some vb => some (a.value ^ 2 * vb / b.value ^ 4)
    | none, none => none⟩

/-- Modelled from the spec: normalizing the summed I(Q) numerator by the
normalization term, after broadcasting the term's uncertainties according
to the selected mode. -/
def normalizeIofq (mode : UncertaintyBroadcastMode) (num : List Measured)
    (denom : Measured) : List Measured :=
  num.map fun m => divMeasured m (broadcast_uncertainties mode num.length denom)

/-! ## Direct-beam iteration -/

/-- Modelled from the spec: the part of the workflow the direct-beam
iteration interacts with.  Given the current per-band direct-beam values
it returns I(Q) for the full wavelength range and I(Q) inside each of the
`nbands` wavelength bands. -/
structure DbWorkflow where
  nbands : ℕ
  iofqFull : List ℚ → List ℚ
  iofqBands : List ℚ → List (List ℚ)

/-- Modelled from the spec: the ratio-based multiplicative factor,
aggregated over Q, that would make a band's I(Q) curve overlap the
full-range curve. -/
def bandScale (full band : List ℚ) : ℚ := full.sum / band.sum

/-- Modelled from the spec: one iteration of `ess.sans.direct_beam` (not
present in the source tree): compute I(Q) for the full range and per
band with the current direct-beam estimate, rescale each band's
direct-beam value by its overlap factor, then apply the global scale
obtained from the reference intensity I0 at the lowest Q. -/
def direct_beam_step (wf : DbWorkflow) (I0 : ℚ) (db : List ℚ) :
    List ℚ × List (List ℚ) × List ℚ :=
  let full := wf.iofqFull db
  let bands := wf.iofqBands db
  let db1 := List.zipWith (fun d band => d * bandScale full band) db bands
  let g := I0 / full.headD 1
  (full, bands, db1.map fun d => d * g)

/-- A value stored in a per-iteration result entry. -/
inductive DbValue where
  | curve (c : List ℚ)
  | curves (cs : List (List ℚ))
deriving DecidableEq

/-- A per-iteration result entry, a mapping from string keys to values. -/
abbrev DbEntry : Type := List (String × DbValue)

/-- The per-iteration entry holding the full-range I(Q), the per-band
I(Q) curves, and the updated direct-beam function. -/
def mkEntry (full : List ℚ) (bands : List (List ℚ)) (db : List ℚ) : DbEntry :=
  [("iofq_full", .curve full), ("iofq_bands", .curves bands), ("direct_beam", .curve db)]

/-- The initial flat direct-beam function, one value per wavelength band. -/
def initialDb (wf : DbWorkflow) : List ℚ := List.replicate wf.nbands 1

/-- The iteration loop of `sans.direct_beam`: run the per-iteration update
n times, collecting one result entry per iteration. -/
def direct_beam_loop (wf : DbWorkflow) (I0 : ℚ) : ℕ → List ℚ → List DbEntry
  | 0, _ => []
  | n + 1, db =>
    let r := direct_beam_step wf I0 db
    mkEntry r.1 r.2.1 r.2.2 :: direct_beam_loop wf I0 n r.2.2

/-- Modelled from the spec: `ess.sans.direct_beam(workflow, I0, niter)`
(not present in the source tree).  Starting from a flat direct-beam
function it runs the per-iteration update `niter` times and returns the
list of per-iteration result entries. -/
def direct_beam (wf : DbWorkflow) (I0 : ℚ) (niter : ℕ) : List DbEntry :=
  direct_beam_loop wf I0 niter (initialDb wf)

/-- The direct-beam values after n updates starting from db. -/
def dbStepN (wf : DbWorkflow) (I0 : ℚ) (db : List ℚ) : ℕ → List ℚ
  | 0 => db
  | n + 1 => (direct_beam_step wf I0 (dbStepN wf I0 db n)).2.2

/-- The direct-beam values after n iterations of the procedure. -/
def dbAfter (wf : DbWorkflow) (I0 : ℚ) (n : ℕ) : List ℚ :=
  dbStepN wf I0 (initialDb wf) n

/-- A workflow on which the direct-beam iteration is converged from the
start: the band curve and the full-range curve already coincide and the
full-range intensity at the lowest Q already equals the reference. -/
def convergedWf : DbWorkflow :=
  { nbands := 1, iofqFull := fun _ => [1], iofqBands := fun _ => [[1]] }

/-! ## Quadrant-based beam-center refinement -/

/-- Modelled from the spec: the inputs `beam_center_from_iofq` works
with — the masked detector pixels, the Q binning (represented by bin
edges on the squared radial distance from the trial center, a monotone
stand-in for Q), the wavelength normalization term, the optional
direct-beam function, and the resolution of the modelled bounded search. -/
structure Workflow where
  pixels : List Pixel
  qbins : List ℚ
  norm : ℚ
  directBeam : Option (List ℚ)
  gridN : ℕ

/-- The weight a pixel contributes to I(Q): its counts integrated over
wavelength, weighted by the direct-beam efficiency when one is present. -/
def pixelWeight (wf : Workflow) (p : Pixel) : ℚ :=
  match wf.directBeam with
  | none => p.counts.sum
  | some db => (List.zipWith (fun c d => c * d) p.counts db).sum

/-- The quadrant (NE, NW, SW, SE) a pixel falls in, relative to a trial
center, from a vertical and a horizontal cut. -/
def quadrantIndex (cx cy : ℚ) (p : Pixel) : Fin 4 :=
  if cx ≤ p.x then (if cy ≤ p.y then 0 else 3) else (if cy ≤ p.y then 1 else 2)

/-- Squared radial distance of a pixel from the trial center. -/
def rsq (cx cy : ℚ) (p : Pixel) : ℚ := (p.x - cx) ^ 2 + (p.y - cy) ^ 2

/-- Index of the half-open bin [edge i, edge i+1) containing v. -/
def binIndexOf : List ℚ → ℚ → Option ℕ
  | a :: b :: rest, v =>
    if a ≤ v ∧ v < b then some 0 else (binIndexOf (b :: rest) v).map (· + 1)
  | _, _ => none

/-- Modelled from the spec: `ess.sans.beam_center_finder._iofq_in_quadrants`
(not present in the source tree).  For a trial center it histograms each
unmasked pixel's weight into its Q bin, separately per quadrant, and
normalizes by the wavelength term. -/
def _iofq_in_quadrants (wf : Workflow) (xy : ℚ × ℚ) : List Quad :=
  (List.range (wf.qbins.length - 1)).map fun i =>
    let inBin : Pixel → Bool := fun p =>
      !p.masked && (binIndexOf wf.qbins (rsq xy.1 xy.2 p) == some i)
    let quadSum : Fin 4 → ℚ := fun qi =>
      ((wf.pixels.filter fun p =>
          inBin p && (quadrantIndex xy.1 xy.2 p == qi)).map (pixelWeight wf)).sum /
        wf.norm
    (quadSum 0, quadSum 1, quadSum 2, quadSum 3)

/-- Minimum of a list of rationals (0 for the empty list). -/
def minList : List ℚ → ℚ
  | [] => 0
  | a :: r => r.foldl min a

/-- Maximum of a list of rationals (0 for the empty list). -/
def maxList : List ℚ → ℚ
  | [] => 0
  | a :: r => r.foldl max a

/-- Clamp v into the interval [lo, hi]. -/
def clampQ (lo hi v : ℚ) : ℚ := max lo (min v hi)

/-- n+1 evenly spaced points spanning [lo, hi]. -/
def gridPoints (lo hi : ℚ) (n : ℕ) : List ℚ :=
  (List.range (n + 1)).map fun i : ℕ => lo + (hi - lo) * ((i : ℚ) / (n : ℚ))

/-- The candidate with the smallest objective value among `best` and the
list of remaining candidates. -/
def argminBy {α : Type} (f : α → ℚ) (best : α) : List α → α
  | [] => best
  | a :: r => argminBy f (if f a < f best then a else best) r

/-- All pairs with first component from xs and second from ys. -/
def pairGrid (xs ys : List ℚ) : List (ℚ × ℚ) :=
  xs.foldr (fun a acc => (ys.map fun b => (a, b)) ++ acc) []

/-- Modelled from the spec: the derivative-free bounded minimizer
(scipy.optimize.minimize with method Powell and bounds).  It is modelled
as an exhaustive search over a finite candidate grid spanning the bounds,
together with the starting point clamped into the bounds; the candidate
with the smallest cost is returned. -/
def minimize (cost : ℚ × ℚ → ℚ) (xlo xhi ylo yhi : ℚ) (x0 : ℚ × ℚ) (n : ℕ) :
    ℚ × ℚ :=
  let seed := (clampQ xlo xhi x0.1, clampQ ylo yhi x0.2)
  let cands := pairGrid (gridPoints xlo xhi n) (gridPoints ylo yhi n)
  argminBy cost seed cands

/-- The x positions of the detector pixels. -/
def detectorXs (wf : Workflow) : List ℚ := wf.pixels.map Pixel.x

/-- The y positions of the detector pixels. -/
def detectorYs (wf : Workflow) : List ℚ := wf.pixels.map Pixel.y

/-- Modelled from the spec: `ess.sans.beam_center_finder.beam_center_from_iofq`
(not present in the source tree).  It sets the workflow's DirectBeam
input to None for its internal I(Q) computation, seeds the bounded
minimizer with the center-of-mass estimate, and searches within the
detector panel's physical extent (the [min, max] range of the pixel x
and y positions) for the center minimizing the quadrant cost. -/
def beam_center_from_iofq (wf : Workflow) : ℚ × ℚ :=
  let wfNoDb : Workflow := { wf with directBeam := none }
  let com := beam_center_from_center_of_mass wf.pixels
  minimize (fun xy => _cost (_iofq_in_quadrants wfNoDb xy))
    (minList (detectorXs wf)) (maxList (detectorXs wf))
    (minList (detectorYs wf)) (maxList (detectorYs wf))
    (com.1, com.2.1) wf.gridN

/-- A small concrete detector panel used to evaluate the finder. -/
def demoPanel : Workflow :=
  { pixels :=
      [⟨-1, -1, 0, [1], false⟩, ⟨-1, 1, 0, [1], false⟩,
        ⟨1, -1, 0, [1], false⟩, ⟨1, 1, 0, [2], false⟩],
    qbins := [0, 3],
    norm := 1,
    directBeam := none,
    gridN := 1 }

/-! ## Dependency-graph pipeline -/

/-- Modelled from the spec: the typed provider graph.  Node identifiers
(the (type, run-role, part-role) combinations) are numbered; each node
has a list of dependency identifiers and a provider function computing
its value from theirs, which may raise (numbered exceptions). -/
structure Pipeline (V : Type) where
  deps : ℕ → List ℕ
  impl : ℕ → List V → Except ℕ V

/-- The ways a pipeline run can stop without a value: the fuel bound was
hit (models a dependency cycle), or a provider raised exception e. -/
inductive RunErr where
  | fuel
  | provider (e : ℕ)
deriving DecidableEq

/-- Lookup in the memoization cache, an association list. -/
def clookup {V : Type} : List (ℕ × V) → ℕ → Option V
  | [], _ => none
  | (a, v) :: r, k => if k = a then some v else clookup r k

/-- Modelled from the spec: demand-driven, memoized, synchronous
evaluation of a list of requested identifiers.  A cached identifier is
returned at once; otherwise its dependencies are resolved recursively,
its provider runs on their values and the result is cached.  A provider
exception short-circuits the whole run.  The trace records each provider
invocation in order; `fuel` bounds the recursion depth. -/
def runList {V : Type} (p : Pipeline V) :
    ℕ → List (ℕ × V) → List ℕ → Except RunErr (List V × List (ℕ × V)) × List ℕ
  | 0, c, [] => (.ok ([], c), [])
  | 0, _, _ :: _ => (.error .fuel, [])
  | _ + 1, c, [] => (.ok ([], c), [])
  | f + 1, c, k :: ks =>
    match clookup c k with
    | some v =>
      match runList p f c ks with
      | (.error e, t2) => (.error e, t2)
      | (.ok (vs, c2), t2) => (.ok (v :: vs, c2), t2)
    | none =>
      match runList p f c (p.deps k) with
      | (.error e, t1) => (.error e, t1)
      | (.ok (ds, c1), t1) =>
        match p.impl k ds with
        | .error e => (.error (.provider e), t1 ++ [k])
        | .ok v =>
          match runList p f ((k, v) :: c1) ks with
          | (.error e, t2) => (.error e, t1 ++ [k] ++ t2)
          | (.ok (vs, c2), t2) => (.ok (v :: vs, c2), t1 ++ [k] ++ t2)

/-- Request a single result from the pipeline. -/
def compute {V : Type} (p : Pipeline V) (f : ℕ) (c : List (ℕ × V)) (k : ℕ) :
    Except RunErr (List V × List (ℕ × V)) × List ℕ :=
  runList p f c [k]

/-- A two-node demo pipeline: node 0 adds one to the value of node 1. -/
def demoP : Pipeline ℕ :=
  { deps := fun k => if k = 0 then [1] else [],
    impl := fun k vs => if k = 0 then .ok (vs.sum + 1) else .ok 5 }

/-- A rank witnessing that the demo pipelines are acyclic. -/
def demoRank : ℕ → ℕ := fun k => if k = 0 then 1 else 0

/-- A demo pipeline whose node 1 provider raises exception 7. -/
def failP : Pipeline ℕ :=
  { deps := fun k => if k = 0 then [1] else [],
    impl := fun k _ => if k = 1 then .error 7 else .ok 0 }

/-! ## Lemmas: quadrant cost -/

lemma quadDev_eq_sum (q : Quad) :
    quadDev q = ∑ i : Fin 4, quadMean q * (quadGet q i - quadMean q) ^ 2 := by
  simp [quadDev, Fin.sum_univ_four, quadGet]
  ring

/-! ## Lemmas: center of mass -/

lemma comFold_general (ps : List Pixel) (a b c d : ℚ) :
    ps.foldl
      (fun acc p =>
        if p.masked then acc
        else
          (acc.1 + integratedCounts p * p.x, acc.2.1 + integratedCounts p * p.y,
            acc.2.2.1 + integratedCounts p * p.z, acc.2.2.2 + integratedCounts p))
      (a, b, c, d) =
      (a + ((unmaskedPixels ps).map fun p => integratedCounts p * p.x).sum,
        b + ((unmaskedPixels ps).map fun p => integratedCounts p * p.y).sum,
        c + ((unmaskedPixels ps).map fun p => integratedCounts p * p.z).sum,
        d + totalWeight ps) := by
  induction ps generalizing a b c d with
  | nil => simp [unmaskedPixels, totalWeight]
  | cons p ps ih =>
    by_cases hm : p.masked
    · simp [List.foldl_cons, hm, ih, unmaskedPixels, totalWeight]
    · simp only [List.foldl_cons, hm, if_neg, Bool.false_eq_true, not_false_iff]
      rw [ih]
      simp [unmaskedPixels, totalWeight, hm]
      refine ⟨by ring, by ring, by ring, by ring⟩

lemma comFold_eq (ps : List Pixel) :
    comFold ps =
      (((unmaskedPixels ps).map fun p => integratedCounts p * p.x).sum,
        ((unmaskedPixels ps).map fun p => integratedCounts p * p.y).sum,
        ((unmaskedPixels ps).map fun p => integratedCounts p * p.z).sum,
        totalWeight ps) := by
  have h := comFold_general ps 0 0 0 0
  simpa [comFold] using h

lemma sum_pos_of_mem_pos (l : List ℚ) (hnn : ∀ x ∈ l, 0 ≤ x)
    (x : ℚ) (hx : x ∈ l) (hxpos : 0 < x) : 0 < l.sum := by
  induction l with
  | nil => cases hx
  | cons a l ih =>
    rcases List.mem_cons.mp hx with h | h
    · have h1 : 0 ≤ l.sum := List.sum_nonneg fun y hy => hnn y (List.mem_cons_of_mem _ hy)
      simp only [List.sum_cons]
      subst h
      linarith
    · have ha : 0 ≤ a := hnn a (List.mem_cons_self _ _)
      have h2 : 0 < l.sum := ih (fun y hy => hnn y (List.mem_cons_of_mem _ hy)) h
      simp only [List.sum_cons]
      linarith

/-! ## Claim theorems: cost function, center of mass, subtraction, modes -/

/-- C1: for every set of four per-quadrant I(Q) curves, the cost evaluated
by the quadrant-symmetry beam-center finder equals the counts-weighted
mean-squared deviation of each quadrant's I(Q) from the four-quadrant
mean, normalized by the total weighted intensity:
cost = [Σ_Q Σ_{i=1..4} Ibar(Q)·(I_i(Q) − Ibar(Q))²] / [Σ_Q Ibar(Q)]. -/
theorem cost_eq_weighted_mean_squared_deviation (quads : List Quad) :
    _cost quads = costFormula quads := by
  have h : quadDev = fun q => ∑ i : Fin 4, quadMean q * (quadGet q i - quadMean q) ^ 2 :=
    funext quadDev_eq_sum
  unfold _cost costFormula
  rw [h]

/-- C2: for every masked detector dataset whose counts are nonnegative and
which has at least one unmasked pixel with nonzero counts, the total
weight is positive and `beam_center_from_center_of_mass` returns exactly
the intensity-weighted centroid of the pixel positions, with the
integrated counts of the unmasked pixels as weights. -/
theorem com_beam_center_eq_weighted_centroid (ps : List Pixel)
    (hnn : ∀ p ∈ ps, ∀ c ∈ p.counts, 0 ≤ c)
    (hex : ∃ p ∈ ps, p.masked = false ∧ integratedCounts p ≠ 0) :
    0 < totalWeight ps ∧ beam_center_from_center_of_mass ps = centroidSpec ps := by
  constructor
  · obtain ⟨p, hp, hpm, hpw⟩ := hex
    have hpu : p ∈ unmaskedPixels ps := by
      simp [unmaskedPixels, List.mem_filter, hp, hpm]
    have hmem : integratedCounts p ∈ (unmaskedPixels ps).map integratedCounts :=
      List.mem_map_of_mem _ hpu
    have hnn2 : ∀ w ∈ (unmaskedPixels ps).map integratedCounts, 0 ≤ w := by
      intro w hw
      obtain ⟨q, hq, rfl⟩ := List.mem_map.mp hw
      have hqps : q ∈ ps := List.mem_of_mem_filter hq
      exact List.sum_nonneg fun cnt hc => hnn q hqps cnt hc
    have hppos : 0 < integratedCounts p := by
      have := List.sum_nonneg fun cnt hc => hnn p hp cnt hc
      rcases lt_or_eq_of_le this with h | h
      · exact h
      · exact absurd h.symm hpw
    exact sum_pos_of_mem_pos _ hnn2 _ hmem hppos
  · simp [beam_center_from_center_of_mass, comFold_eq, centroidSpec]

/-- C2 witness: a concrete three-pixel dataset (one pixel masked). -/
theorem com_beam_center_eq_weighted_centroid_witness :
    0 < totalWeight
        [⟨1, 2, 0, [2, 1], false⟩, ⟨3, 0, 0, [1], false⟩, ⟨100, 100, 100, [5], true⟩] ∧
      beam_center_from_center_of_mass
          [⟨1, 2, 0, [2, 1], false⟩, ⟨3, 0, 0, [1], false⟩, ⟨100, 100, 100, [5], true⟩] =
        centroidSpec
          [⟨1, 2, 0, [2, 1], false⟩, ⟨3, 0, 0, [1], false⟩, ⟨100, 100, 100, [5], true⟩] :=
  com_beam_center_eq_weighted_centroid _
    (by intro p hp; fin_cases hp <;> intro c hc <;> fin_cases hc <;> norm_num)
    ⟨⟨1, 2, 0, [2, 1], false⟩, by simp, rfl, by norm_num [integratedCounts]⟩

/-- C4: when sample and background I(Q) are reduced with identical Q
binning, the background-subtracted result exists and at every Q bin
equals the pointwise difference of sample and background. -/
theorem background_subtracted_iofq_pointwise (s b : IofQ)
    (hedges : s.edges = b.edges) (hlen : s.values.length = b.values.length)
    (i : ℕ) (hi : i < s.values.length) :
    ∃ r, background_subtracted_iofq s b = some r ∧
      r.values[i]? = some (s.values.get ⟨i, hi⟩ - b.values.get ⟨i, by omega⟩) := by
  refine ⟨⟨s.edges, List.zipWith (fun u v => u - v) s.values b.values⟩, ?_, ?_⟩
  · simp [background_subtracted_iofq, hedges, hlen]
  · have hz : i < (List.zipWith (fun u v : ℚ => u - v) s.values b.values).length := by
      rw [List.length_zipWith]
      omega
    rw [List.getElem?_eq_getElem hz]
    simp [List.getElem_zipWith]

/-- C4 witness: two concrete two-bin curves with identical binning. -/
theorem background_subtracted_iofq_pointwise_witness :
    ∃ r, background_subtracted_iofq ⟨[0, 1, 2], [5, 3]⟩ ⟨[0, 1, 2], [2, 1]⟩ = some r ∧
      r.values[1]? =
        some ((⟨[0, 1, 2], [5, 3]⟩ : IofQ).values.get ⟨1, by decide⟩ -
          (⟨[0, 1, 2], [2, 1]⟩ : IofQ).values.get ⟨1, by decide⟩) :=
  background_subtracted_iofq_pointwise ⟨[0, 1, 2], [5, 3]⟩ ⟨[0, 1, 2], [2, 1]⟩
    (by decide) (by decide) 1 (by decide)

/-- C5: computing I(Q) with the upper_bound uncertainty-broadcast mode and
with the drop mode yields identical central values at every Q bin; the
modes can only differ in the variances. -/
theorem iofq_values_mode_independent (num : List Measured) (denom : Measured) :
    (normalizeIofq .upper_bound num denom).map Measured.value =
      (normalizeIofq .drop num denom).map Measured.value := by
  simp [normalizeIofq, List.map_map, Function.comp, divMeasured, broadcast_uncertainties]

/-! ## Lemmas: direct-beam iteration -/

lemma direct_beam_loop_length (wf : DbWorkflow) (I0 : ℚ) :
    ∀ (n : ℕ) (db : List ℚ), (direct_beam_loop wf I0 n db).length = n := by
  intro n
  induction n with
  | zero => intro db; simp [direct_beam_loop]
  | succ n ih => intro db; simp [direct_beam_loop, ih]

lemma dbStepN_shift (wf : DbWorkflow) (I0 : ℚ) (db : List ℚ) :
    ∀ n, dbStepN wf I0 (direct_beam_step wf I0 db).2.2 n = dbStepN wf I0 db (n + 1) := by
  intro n
  induction n with
  | zero => simp [dbStepN]
  | succ n ih => simp only [dbStepN, ih]

lemma direct_beam_loop_getElem (wf : DbWorkflow) (I0 : ℚ) :
    ∀ (n : ℕ) (db : List ℚ) (i : ℕ), i < n →
      (direct_beam_loop wf I0 n db)[i]? =
        some (mkEntry (direct_beam_step wf I0 (dbStepN wf I0 db i)).1
          (direct_beam_step wf I0 (dbStepN wf I0 db i)).2.1
          (dbStepN wf I0 db (i + 1))) := by
  intro n
  induction n with
  | zero => intro db i hi; omega
  | succ n ih =>
    intro db i hi
    cases i with
    | zero => simp [direct_beam_loop, dbStepN]
    | succ i =>
      have hi2 : i < n := by omega
      simp only [direct_beam_loop, List.getElem?_cons_succ]
      rw [ih _ i hi2, dbStepN_shift, dbStepN_shift]

lemma direct_beam_loop_mem (wf : DbWorkflow) (I0 : ℚ) :
    ∀ (n : ℕ) (db : List ℚ) (e : DbEntry), e ∈ direct_beam_loop wf I0 n db →
      ∃ full bands d, e = mkEntry full bands d := by
  intro n
  induction n with
  | zero => intro db e he; simp [direct_beam_loop] at he
  | succ n ih =>
    intro db e he
    simp only [direct_beam_loop, List.mem_cons] at he
    rcases he with rfl | he
    · exact ⟨_, _, _, rfl⟩
    · exact ih _ e he

lemma mkEntry_lookup_direct_beam (full : List ℚ) (bands : List (List ℚ)) (d : List ℚ) :
    List.lookup "direct_beam" (mkEntry full bands d) = some (.curve d) := by
  simp [mkEntry, List.lookup]

/-- C9: `sans.direct_beam` returns one entry per iteration, in iteration
order; each entry is a mapping containing the keys iofq_full, iofq_bands
and direct_beam, the i-th entry holds the results of the i-th update, and
the last entry holds the final direct-beam function. -/
theorem direct_beam_entry_structure (wf : DbWorkflow) (I0 : ℚ) (niter i : ℕ)
    (hi : i < niter) :
    (direct_beam wf I0 niter).length = niter ∧
    (∀ e ∈ direct_beam wf I0 niter,
      (List.lookup "iofq_full" e).isSome = true ∧
      (List.lookup "iofq_bands" e).isSome = true ∧
      (List.lookup "direct_beam" e).isSome = true) ∧
    (direct_beam wf I0 niter)[i]? =
      some (mkEntry (direct_beam_step wf I0 (dbAfter wf I0 i)).1
        (direct_beam_step wf I0 (dbAfter wf I0 i)).2.1 (dbAfter wf I0 (i + 1))) ∧
    ((direct_beam wf I0 niter).getLast?).bind (List.lookup "direct_beam") =
      some (.curve (dbAfter wf I0 niter)) := by
  have hlen : (direct_beam wf I0 niter).length = niter :=
    direct_beam_loop_length wf I0 niter (initialDb wf)
  refine ⟨hlen, ?_, ?_, ?_⟩
  · intro e he
    obtain ⟨full, bands, d, rfl⟩ := direct_beam_loop_mem wf I0 niter (initialDb wf) e he
    refine ⟨?_, ?_, ?_⟩ <;> simp [mkEntry, List.lookup]
  · exact direct_beam_loop_getElem wf I0 niter (initialDb wf) i hi
  · unfold direct_beam
    rw [List.getLast?_eq_getElem?]
    rw [direct_beam_loop_length wf I0 niter (initialDb wf)]
    rw [direct_beam_loop_getElem wf I0 niter (initialDb wf) (niter - 1) (by omega)]
    have h2 : niter - 1 + 1 = niter := by omega
    rw [h2]
    simp [mkEntry_lookup_direct_beam, dbAfter]

/-- C9 witness: a concrete workflow run for two iterations, inspected at
the first entry. -/
theorem direct_beam_entry_structure_witness :
    (direct_beam convergedWf 1 2).length = 2 ∧
    (∀ e ∈ direct_beam convergedWf 1 2,
      (List.lookup "iofq_full" e).isSome = true ∧
      (List.lookup "iofq_bands" e).isSome = true ∧
      (List.lookup "direct_beam" e).isSome = true) ∧
    (direct_beam convergedWf 1 2)[0]? =
      some (mkEntry (direct_beam_step convergedWf 1 (dbAfter convergedWf 1 0)).1
        (direct_beam_step convergedWf 1 (dbAfter convergedWf 1 0)).2.1
        (dbAfter convergedWf 1 (0 + 1))) ∧
    ((direct_beam convergedWf 1 2).getLast?).bind (List.lookup "direct_beam") =
      some (.curve (dbAfter convergedWf 1 2)) :=
  direct_beam_entry_structure convergedWf 1 2 0 (by omega)

/-- C3 (amended): `sans.direct_beam` performs its per-iteration update
exactly niter times — the returned entry list always has length niter;
no convergence-based early stopping is implemented. -/
theorem direct_beam_fixed_iteration_count (wf : DbWorkflow) (I0 : ℚ) (niter : ℕ) :
    (direct_beam wf I0 niter).length = niter :=
  direct_beam_loop_length wf I0 niter (initialDb wf)

/-- C3 counterexample: on a workflow that is converged from the start the
change in the direct-beam values between consecutive iterations is zero —
below any convergence threshold — yet a run with niter = 6 still performs
all six updates and returns six entries instead of stopping early. -/
theorem direct_beam_converged_run_no_early_stop :
    dbAfter convergedWf 1 2 = dbAfter convergedWf 1 1 ∧
    (direct_beam convergedWf 1 6).length = 6 := by
  constructor
  · norm_num [dbAfter, dbStepN, direct_beam_step, convergedWf, initialDb, bandScale]
  · norm_num [direct_beam, direct_beam_loop, direct_beam_step, convergedWf,
      initialDb, bandScale]

/-! ## Lemmas: bounded minimizer -/

lemma argminBy_mem {α : Type} (f : α → ℚ) :
    ∀ (l : List α) (best : α), argminBy f best l ∈ best :: l := by
  intro l
  induction l with
  | nil => intro best; simp [argminBy]
  | cons a r ih =>
    intro best
    simp only [argminBy]
    by_cases hc : f a < f best
    · rw [if_pos hc]
      rcases List.mem_cons.mp (ih a) with h2 | h2
      · simp [h2]
      · simp [h2]
    · rw [if_neg hc]
      rcases List.mem_cons.mp (ih best) with h2 | h2
      · simp [h2]
      · simp [h2]

lemma foldl_min_le (l : List ℚ) (a : ℚ) : l.foldl min a ≤ a := by
  induction l generalizing a with
  | nil => simp
  | cons x r ih =>
    calc (x :: r).foldl min a = r.foldl min (min a x) := by simp [List.foldl_cons]
    _ ≤ min a x := ih (min a x)
    _ ≤ a := min_le_left a x

lemma le_foldl_max (l : List ℚ) (a : ℚ) : a ≤ l.foldl max a := by
  induction l generalizing a with
  | nil => simp
  | cons x r ih =>
    calc a ≤ max a x := le_max_left a x
    _ ≤ r.foldl max (max a x) := ih (max a x)
    _ = (x :: r).foldl max a := by simp [List.foldl_cons]

lemma minList_le_maxList (l : List ℚ) (h : l ≠ []) : minList l ≤ maxList l := by
  cases l with
  | nil => exact absurd rfl h
  | cons a r =>
    calc minList (a :: r) = r.foldl min a := rfl
    _ ≤ a := foldl_min_le r a
    _ ≤ r.foldl max a := le_foldl_max r a
    _ = maxList (a :: r) := rfl

lemma clampQ_bounds (lo hi v : ℚ) (h : lo ≤ hi) :
    lo ≤ clampQ lo hi v ∧ clampQ lo hi v ≤ hi :=
  ⟨le_max_left lo (min v hi), max_le h (min_le_right v hi)⟩

lemma gridPoints_bounds (lo hi : ℚ) (n : ℕ) (h : lo ≤ hi) :
    ∀ v ∈ gridPoints lo hi n, lo ≤ v ∧ v ≤ hi := by
  intro v hv
  rw [gridPoints, List.mem_map] at hv
  obtain ⟨i, hir, rfl⟩ := hv
  rw [List.mem_range] at hir
  have h0 : (0 : ℚ) ≤ (i : ℚ) / (n : ℚ) := by positivity
  have h1 : (i : ℚ) / (n : ℚ) ≤ 1 := by
    rcases Nat.eq_zero_or_pos n with hn | hn
    · subst hn; simp
    · rw [div_le_one (by exact_mod_cast hn)]
      exact_mod_cast Nat.le_of_lt_succ hir
  have hd : (0 : ℚ) ≤ hi - lo := by linarith
  constructor
  · nlinarith
  · nlinarith

lemma pairGrid_mem (xs ys : List ℚ) :
    ∀ q ∈ pairGrid xs ys, q.1 ∈ xs ∧ q.2 ∈ ys := by
  induction xs with
  | nil => intro q hq; simp [pairGrid] at hq
  | cons a xs ih =>
    intro q hq
    simp only [pairGrid, List.foldr_cons, List.mem_append, List.mem_map] at hq
    rcases hq with ⟨b, hb, rfl⟩ | hq
    · exact ⟨List.mem_cons_self a xs, hb⟩
    · have h2 := ih q hq
      exact ⟨List.mem_cons_of_mem a h2.1, h2.2⟩

lemma minimize_mem_bounds (cost : ℚ × ℚ → ℚ) (xlo xhi ylo yhi : ℚ)
    (x0 : ℚ × ℚ) (n : ℕ) (hx : xlo ≤ xhi) (hy : ylo ≤ yhi) :
    xlo ≤ (minimize cost xlo xhi ylo yhi x0 n).1 ∧
    (minimize cost xlo xhi ylo yhi x0 n).1 ≤ xhi ∧
    ylo ≤ (minimize cost xlo xhi ylo yhi x0 n).2 ∧
    (minimize cost xlo xhi ylo yhi x0 n).2 ≤ yhi := by
  have hmem := argminBy_mem cost
    (pairGrid (gridPoints xlo xhi n) (gridPoints ylo yhi n))
    (clampQ xlo xhi x0.1, clampQ ylo yhi x0.2)
  have hres : minimize cost xlo xhi ylo yhi x0 n ∈
      (clampQ xlo xhi x0.1, clampQ ylo yhi x0.2) ::
        pairGrid (gridPoints xlo xhi n) (gridPoints ylo yhi n) := hmem
  rcases List.mem_cons.mp hres with heq | hcand
  · rw [heq]
    have h1 := clampQ_bounds xlo xhi x0.1 hx
    have h2 := clampQ_bounds ylo yhi x0.2 hy
    exact ⟨h1.1, h1.2, h2.1, h2.2⟩
  · have h3 := pairGrid_mem _ _ _ hcand
    have h4 := gridPoints_bounds xlo xhi n hx _ h3.1
    have h5 := gridPoints_bounds ylo yhi n hy _ h3.2
    exact ⟨h4.1, h4.2, h5.1, h5.2⟩

/-- C6: the quadrant-symmetry refinement searches within the detector
panel's physical extent — the [min, max] range of the pixel x and y
positions — so the center it returns always lies within those bounds. -/
theorem beam_center_from_iofq_within_bounds (wf : Workflow) (hne : wf.pixels ≠ []) :
    minList (detectorXs wf) ≤ (beam_center_from_iofq wf).1 ∧
    (beam_center_from_iofq wf).1 ≤ maxList (detectorXs wf) ∧
    minList (detectorYs wf) ≤ (beam_center_from_iofq wf).2 ∧
    (beam_center_from_iofq wf).2 ≤ maxList (detectorYs wf) := by
  have hxs : detectorXs wf ≠ [] := by simp [detectorXs, hne]
  have hys : detectorYs wf ≠ [] := by simp [detectorYs, hne]
  have hx := minList_le_maxList _ hxs
  have hy := minList_le_maxList _ hys
  exact minimize_mem_bounds _ _ _ _ _ _ _ hx hy

/-- C6 witness: the finder applied to a concrete four-pixel panel. -/
theorem beam_center_from_iofq_within_bounds_witness :
    minList (detectorXs demoPanel) ≤ (beam_center_from_iofq demoPanel).1 ∧
    (beam_center_from_iofq demoPanel).1 ≤ maxList (detectorXs demoPanel) ∧
    minList (detectorYs demoPanel) ≤ (beam_center_from_iofq demoPanel).2 ∧
    (beam_center_from_iofq demoPanel).2 ≤ maxList (detectorYs demoPanel) :=
  beam_center_from_iofq_within_bounds demoPanel (by simp [demoPanel])

/-- C10: `beam_center_from_iofq` overrides the DirectBeam input with None
for its internal I(Q) computation, so the beam center it returns is the
same for any two direct-beam functions supplied to the workflow. -/
theorem beam_center_from_iofq_direct_beam_independent (wf : Workflow)
    (db1 db2 : Option (List ℚ)) :
    beam_center_from_iofq { wf with directBeam := db1 } =
      beam_center_from_iofq { wf with directBeam := db2 } := rfl

/-! ## Lemmas: pipeline evaluation -/

lemma clookup_cons_self {V : Type} (c : List (ℕ × V)) (k : ℕ) (v : V) :
    clookup ((k, v) :: c) k = some v := by
  simp [clookup]

lemma clookup_cons_ne {V : Type} (c : List (ℕ × V)) (k j : ℕ) (v : V) (h : j ≠ k) :
    clookup ((k, v) :: c) j = clookup c j := by
  simp [clookup, h]

lemma runList_nil {V : Type} (p : Pipeline V) (f : ℕ) (c : List (ℕ × V)) :
    runList p f c [] = (.ok ([], c), []) := by
  cases f <;> rfl

/-- Invariants of a successful run: requested identifiers end up cached
with the returned values, the cache only grows, the trace holds only
identifiers that were not cached before and are cached after, every
traced identifier has rank at most that of some requested identifier,
and no identifier is traced twice. -/
lemma runList_ok_invariant {V : Type} (p : Pipeline V) (rank : ℕ → ℕ)
    (hrank : ∀ k j, j ∈ p.deps k → rank j < rank k) :
    ∀ (f : ℕ) (c : List (ℕ × V)) (ks : List ℕ) (vs : List V)
      (c2 : List (ℕ × V)) (t : List ℕ),
      runList p f c ks = (.ok (vs, c2), t) →
        List.Forall₂ (fun k v => clookup c2 k = some v) ks vs ∧
        (∀ j w, clookup c j = some w → clookup c2 j = some w) ∧
        (∀ j ∈ t, clookup c j = none) ∧
        (∀ j ∈ t, (clookup c2 j).isSome = true) ∧
        (∀ j ∈ t, ∃ d ∈ ks, rank j ≤ rank d) ∧
        t.Nodup := by
  intro f
  induction f with
  | zero =>
    intro c ks vs c2 t h
    cases ks with
    | nil =>
      simp only [runList, Prod.mk.injEq, Except.ok.injEq] at h
      obtain ⟨⟨hvs, hc⟩, ht⟩ := h
      subst hvs; subst hc; subst ht
      simp
    | cons k ks => simp [runList] at h
  | succ f ih =>
    intro c ks vs c2 t h
    cases ks with
    | nil =>
      simp only [runList, Prod.mk.injEq, Except.ok.injEq] at h
      obtain ⟨⟨hvs, hc⟩, ht⟩ := h
      subst hvs; subst hc; subst ht
      simp
    | cons k ks =>
      simp only [runList] at h
      cases h1 : clookup c k with
      | some v =>
        simp only [h1] at h
        rcases h2 : runList p f c ks with ⟨e2 | ⟨vs2, c2x⟩, t2⟩
        · simp only [h2] at h
          simp at h
        · simp only [h2] at h
          simp only [Prod.mk.injEq, Except.ok.injEq] at h
          obtain ⟨⟨hvs, hc⟩, ht⟩ := h
          subst hvs; subst hc; subst ht
          obtain ⟨F2, P2, N2, S2, R2, D2⟩ := ih c ks vs2 c2x t2 h2
          refine ⟨List.Forall₂.cons (P2 k v h1) F2, P2, N2, S2, ?_, D2⟩
          intro j hj
          obtain ⟨d, hd, hr⟩ := R2 j hj
          exact ⟨d, List.mem_cons_of_mem _ hd, hr⟩
      | none =>
        simp only [h1] at h
        rcases h2 : runList p f c (p.deps k) with ⟨e1 | ⟨ds, c1⟩, t1⟩
        · simp only [h2] at h
          simp at h
        · simp only [h2] at h
          rcases h3 : p.impl k ds with e3 | v3
          · simp only [h3] at h
            simp at h
          · simp only [h3] at h
            rcases h4 : runList p f ((k, v3) :: c1) ks with ⟨e4 | ⟨vs4, c4⟩, t4⟩
            · simp only [h4] at h
              simp at h
            · simp only [h4] at h
              simp only [Prod.mk.injEq, Except.ok.injEq] at h
              obtain ⟨⟨hvs, hc⟩, ht⟩ := h
              subst hvs; subst hc; subst ht
              obtain ⟨F1, P1, N1, S1, R1, D1⟩ := ih c (p.deps k) ds c1 t1 h2
              obtain ⟨F4, P4, N4, S4, R4, D4⟩ := ih ((k, v3) :: c1) ks vs4 c4 t4 h4
              have hkc1 : clookup ((k, v3) :: c1) k = some v3 := clookup_cons_self c1 k v3
              have pres1 : ∀ j w, clookup c j = some w → clookup ((k, v3) :: c1) j = some w := by
                intro j w hjw
                have hjk : j ≠ k := by
                  intro he
                  rw [he, h1] at hjw
                  exact Option.noConfusion hjw
                rw [clookup_cons_ne c1 k j v3 hjk]
                exact P1 j w hjw
              have someC1 : ∀ j, j ∈ t1 ++ [k] → (clookup ((k, v3) :: c1) j).isSome = true := by
                intro j hj
                rcases List.mem_append.mp hj with hj1 | hjk
                · by_cases hje : j = k
                  · subst hje; rw [hkc1]; rfl
                  · rw [clookup_cons_ne c1 k j v3 hje]
                    exact S1 j hj1
                · have hje : j = k := by simpa using hjk
                  subst hje; rw [hkc1]; rfl
              have lift4 : ∀ j, (clookup ((k, v3) :: c1) j).isSome = true →
                  (clookup c4 j).isSome = true := by
                intro j hj
                obtain ⟨w, hw⟩ := Option.isSome_iff_exists.mp hj
                rw [P4 j w hw]
                rfl
              have rankT1 : ∀ j ∈ t1, rank j < rank k := by
                intro j hj
                obtain ⟨d, hd, hr⟩ := R1 j hj
                exact lt_of_le_of_lt hr (hrank k d hd)
              refine ⟨List.Forall₂.cons (P4 k v3 hkc1) F4,
                fun j w hw => P4 j w (pres1 j w hw), ?_, ?_, ?_, ?_⟩
              · intro j hj
                rcases List.mem_append.mp hj with hj1 | hj4
                · rcases List.mem_append.mp hj1 with hj1 | hjk
                  · exact N1 j hj1
                  · have hje : j = k := by simpa using hjk
                    subst hje; exact h1
                · cases h5 : clookup c j with
                  | none => rfl
                  | some w =>
                    have h6 := pres1 j w h5
                    rw [N4 j hj4] at h6
                    exact Option.noConfusion h6
              · intro j hj
                rcases List.mem_append.mp hj with hj1 | hj4
                · exact lift4 j (someC1 j hj1)
                · exact S4 j hj4
              · intro j hj
                rcases List.mem_append.mp hj with hj1 | hj4
                · rcases List.mem_append.mp hj1 with hj1 | hjk
                  · exact ⟨k, List.mem_cons_self _ _, le_of_lt (rankT1 j hj1)⟩
                  · have hje : j = k := by simpa using hjk
                    subst hje; exact ⟨j, List.mem_cons_self _ _, le_refl _⟩
                · obtain ⟨d, hd, hr⟩ := R4 j hj4
                  exact ⟨d, List.mem_cons_of_mem _ hd, hr⟩
              · rw [List.nodup_append]
                refine ⟨?_, D4, ?_⟩
                · rw [List.nodup_append]
                  refine ⟨D1, List.nodup_singleton k, ?_⟩
                  intro a ha1 hak
                  have hae : a = k := by simpa using hak
                  subst hae
                  exact absurd (rankT1 a ha1) (lt_irrefl _)
                · intro a ha1 ha4
                  have h6 := someC1 a ha1
                  rw [N4 a ha4] at h6
                  exact Bool.noConfusion h6

/-- Invariants of a failed run: the trace still holds only previously
uncached identifiers, still bounded in rank, still without repetition (no
provider is retried), and when the failure is a provider exception the
last identifier in the trace is the provider that raised exactly that
exception — nothing runs after it. -/
lemma runList_error_invariant {V : Type} (p : Pipeline V) (rank : ℕ → ℕ)
    (hrank : ∀ k j, j ∈ p.deps k → rank j < rank k) :
    ∀ (f : ℕ) (c : List (ℕ × V)) (ks : List ℕ) (e : RunErr) (t : List ℕ),
      runList p f c ks = (.error e, t) →
        (∀ j ∈ t, clookup c j = none) ∧
        (∀ j ∈ t, ∃ d ∈ ks, rank j ≤ rank d) ∧
        t.Nodup ∧
        (∀ e2, e = .provider e2 →
          ∃ j ds, t.getLast? = some j ∧ p.impl j ds = .error e2) := by
  intro f
  induction f with
  | zero =>
    intro c ks e t h
    cases ks with
    | nil => simp [runList] at h
    | cons k ks =>
      simp only [runList, Prod.mk.injEq, Except.error.injEq] at h
      obtain ⟨he, ht⟩ := h
      subst he; subst ht
      refine ⟨by simp, by simp, List.nodup_nil, ?_⟩
      intro e2 he2
      exact absurd he2 (by simp)
  | succ f ih =>
    intro c ks e t h
    cases ks with
    | nil => simp [runList] at h
    | cons k ks =>
      simp only [runList] at h
      cases h1 : clookup c k with
      | some v =>
        simp only [h1] at h
        rcases h2 : runList p f c ks with ⟨e2x | ⟨vs2, c2x⟩, t2⟩
        · simp only [h2] at h
          simp only [Prod.mk.injEq, Except.error.injEq] at h
          obtain ⟨he, ht⟩ := h
          subst he; subst ht
          obtain ⟨N2, R2, D2, L2⟩ := ih c ks e2x t2 h2
          refine ⟨N2, ?_, D2, L2⟩
          intro j hj
          obtain ⟨d, hd, hr⟩ := R2 j hj
          exact ⟨d, List.mem_cons_of_mem _ hd, hr⟩
        · simp only [h2] at h
          simp at h
      | none =>
        simp only [h1] at h
        rcases h2 : runList p f c (p.deps k) with ⟨e1 | ⟨ds, c1⟩, t1⟩
        · simp only [h2] at h
          simp only [Prod.mk.injEq, Except.error.injEq] at h
          obtain ⟨he, ht⟩ := h
          subst he; subst ht
          obtain ⟨N1, R1, D1, L1⟩ := ih c (p.deps k) e1 t1 h2
          refine ⟨N1, ?_, D1, L1⟩
          intro j hj
          obtain ⟨d, hd, hr⟩ := R1 j hj
          exact ⟨k, List.mem_cons_self _ _, le_of_lt (lt_of_le_of_lt hr (hrank k d hd))⟩
        · simp only [h2] at h
          rcases h3 : p.impl k ds with e3 | v3
          · simp only [h3] at h
            simp only [Prod.mk.injEq, Except.error.injEq] at h
            obtain ⟨he, ht⟩ := h
            subst he; subst ht
            obtain ⟨F1, P1, N1, S1, R1, D1⟩ :=
              runList_ok_invariant p rank hrank f c (p.deps k) ds c1 t1 h2
            have rankT1 : ∀ j ∈ t1, rank j < rank k := by
              intro j hj
              obtain ⟨d, hd, hr⟩ := R1 j hj
              exact lt_of_le_of_lt hr (hrank k d hd)
            refine ⟨?_, ?_, ?_, ?_⟩
            · intro j hj
              rcases List.mem_append.mp hj with hj1 | hjk
              · exact N1 j hj1
              · have hje : j = k := by simpa using hjk
                subst hje; exact h1
            · intro j hj
              rcases List.mem_append.mp hj with hj1 | hjk
              · exact ⟨k, List.mem_cons_self _ _, le_of_lt (rankT1 j hj1)⟩
              · have hje : j = k := by simpa using hjk
                subst hje; exact ⟨j, List.mem_cons_self _ _, le_refl _⟩
            · rw [List.nodup_append]
              refine ⟨D1, List.nodup_singleton k, ?_⟩
              intro a ha1 hak
              have hae : a = k := by simpa using hak
              subst hae
              exact absurd (rankT1 a ha1) (lt_irrefl _)
            · intro e2 he2
              have he3 : e3 = e2 := by
                cases he2
                rfl
              subst he3
              exact ⟨k, ds, List.getLast?_concat t1, h3⟩
          · simp only [h3] at h
            rcases h4 : runList p f ((k, v3) :: c1) ks with ⟨e4 | ⟨vs4, c4⟩, t4⟩
            · simp only [h4] at h
              simp only [Prod.mk.injEq, Except.error.injEq] at h
              obtain ⟨he, ht⟩ := h
              subst he; subst ht
              obtain ⟨F1, P1, N1, S1, R1, D1⟩ :=
                runList_ok_invariant p rank hrank f c (p.deps k) ds c1 t1 h2
              obtain ⟨N4e, R4e, D4e, L4e⟩ := ih ((k, v3) :: c1) ks e4 t4 h4
              have hkc1 : clookup ((k, v3) :: c1) k = some v3 := clookup_cons_self c1 k v3
              have pres1 : ∀ j w, clookup c j = some w →
                  clookup ((k, v3) :: c1) j = some w := by
                intro j w hjw
                have hjk : j ≠ k := by
                  intro he
                  rw [he, h1] at hjw
                  exact Option.noConfusion hjw
                rw [clookup_cons_ne c1 k j v3 hjk]
                exact P1 j w hjw
              have someC1 : ∀ j, j ∈ t1 ++ [k] →
                  (clookup ((k, v3) :: c1) j).isSome = true := by
                intro j hj
                rcases List.mem_append.mp hj with hj1 | hjk
                · by_cases hje : j = k
                  · subst hje; rw [hkc1]; rfl
                  · rw [clookup_cons_ne c1 k j v3 hje]
                    exact S1 j hj1
                · have hje : j = k := by simpa using hjk
                  subst hje; rw [hkc1]; rfl
              have rankT1 : ∀ j ∈ t1, rank j < rank k := by
                intro j hj
                obtain ⟨d, hd, hr⟩ := R1 j hj
                exact lt_of_le_of_lt hr (hrank k d hd)
              refine ⟨?_, ?_, ?_, ?_⟩
              · intro j hj
                rcases List.mem_append.mp hj with hj1 | hj4
                · rcases List.mem_append.mp hj1 with hj1 | hjk
                  · exact N1 j hj1
                  · have hje : j = k := by simpa using hjk
                    subst hje; exact h1
                · cases h5 : clookup c j with
                  | none => rfl
                  | some w =>
                    have h6 := pres1 j w h5
                    rw [N4e j hj4] at h6
                    exact Option.noConfusion h6
              · intro j hj
                rcases List.mem_append.mp hj with hj1 | hj4
                · rcases List.mem_append.mp hj1 with hj1 | hjk
                  · exact ⟨k, List.mem_cons_self _ _, le_of_lt (rankT1 j hj1)⟩
                  · have hje : j = k := by simpa using hjk
                    subst hje; exact ⟨j, List.mem_cons_self _ _, le_refl _⟩
                · obtain ⟨d, hd, hr⟩ := R4e j hj4
                  exact ⟨d, List.mem_cons_of_mem _ hd, hr⟩
              · rw [List.nodup_append]
                refine ⟨?_, D4e, ?_⟩
                · rw [List.nodup_append]
                  refine ⟨D1, List.nodup_singleton k, ?_⟩
                  intro a ha1 hak
                  have hae : a = k := by simpa using hak
                  subst hae
                  exact absurd (rankT1 a ha1) (lt_irrefl _)
                · intro a ha1 ha4
                  have h6 := someC1 a ha1
                  rw [N4e a ha4] at h6
                  exact Bool.noConfusion h6
              · intro e2 he2
                obtain ⟨j, ds2, hlast4, himpl⟩ := L4e e2 he2
                have ht4 : t4 ≠ [] := by
                  intro hnil
                  rw [hnil] at hlast4
                  simp at hlast4
                refine ⟨j, ds2, ?_, himpl⟩
                rw [List.getLast?_append_of_ne_nil _ ht4]
                exact hlast4
            · simp only [h4] at h
              simp at h

/-- C7: for an acyclic pipeline (witnessed by a rank function), computing
the same query twice without changing any parameter returns bit-identical
results: with the cache retained from the first run, the second run
returns exactly the same value and performs no provider invocation at
all (empty trace); and within the first run each identifier was computed
at most once (the invocation trace has no duplicates). -/
theorem pipeline_memoized_recompute {V : Type} (p : Pipeline V) (rank : ℕ → ℕ)
    (hrank : ∀ k j, j ∈ p.deps k → rank j < rank k)
    (f f2 k : ℕ) (v : V) (c : List (ℕ × V)) (t : List ℕ)
    (hrun : compute p f [] k = (.ok ([v], c), t)) :
    compute p (f2 + 1) c k = (.ok ([v], c), []) ∧ t.Nodup := by
  obtain ⟨F, P, N, S, R, D⟩ := runList_ok_invariant p rank hrank f [] [k] [v] c t hrun
  have hk : clookup c k = some v := by
    cases F with
    | cons hkv _ => exact hkv
  constructor
  · show runList p (f2 + 1) c [k] = (.ok ([v], c), [])
    simp only [runList, hk]
    rw [runList_nil]
  · exact D

/-- C7 witness: caching and re-requesting node 0 of the two-node demo
pipeline. -/
theorem pipeline_memoized_recompute_witness :
    compute demoP 1 [(0, 6), (1, 5)] 0 = (.ok ([6], [(0, 6), (1, 5)]), []) ∧
      ([1, 0] : List ℕ).Nodup :=
  pipeline_memoized_recompute demoP demoRank
    (by
      intro k j hj
      by_cases hk : k = 0
      · subst hk
        simp [demoP] at hj
        subst hj
        simp [demoRank]
      · simp [demoP, hk] at hj)
    3 0 0 6 [(0, 6), (1, 5)] [1, 0] (by rfl)

/-- C8: for an acyclic pipeline, when a requested computation fails with a
provider exception, no provider was invoked twice (no retry), the
exception reaching the caller is exactly the one raised by the provider
invoked last (it propagates uncaught and nothing runs after it), and no
value is returned for the failed request. -/
theorem pipeline_error_propagation {V : Type} (p : Pipeline V) (rank : ℕ → ℕ)
    (hrank : ∀ k j, j ∈ p.deps k → rank j < rank k)
    (f k e : ℕ) (t : List ℕ)
    (hrun : compute p f [] k = (.error (.provider e), t)) :
    t.Nodup ∧
    (∃ j ds, t.getLast? = some j ∧ p.impl j ds = .error e) ∧
    (∀ vs c2 t2, compute p f [] k ≠ (.ok (vs, c2), t2)) := by
  obtain ⟨N, R, D, L⟩ :=
    runList_error_invariant p rank hrank f [] [k] (.provider e) t hrun
  refine ⟨D, L e rfl, ?_⟩
  intro vs c2 t2 hok
  rw [hrun] at hok
  simp at hok

/-- C8 witness: requesting node 0 of the demo pipeline whose node 1
provider raises exception 7. -/
theorem pipeline_error_propagation_witness :
    ([1] : List ℕ).Nodup ∧
    (∃ j ds, ([1] : List ℕ).getLast? = some j ∧ failP.impl j ds = .error 7) ∧
    (∀ vs c2 t2, compute failP 3 [] 0 ≠ (.ok (vs, c2), t2)) :=
  pipeline_error_propagation failP demoRank
    (by
      intro k j hj
      by_cases hk : k = 0
      · subst hk
        simp [failP] at hj
        subst hj
        simp [demoRank]
      · simp [failP, hk] at hj)
    3 0 7 [1] (by rfl)

end EssSans
